import Mathlib

/-!
Formal model of `src/vector_convolution.c`: a multichannel, multikernel 2D
convolution computed by a reference implementation (`multichannel_conv`),
an optimized implementation (`student_conv`), an equivalence checker
(`check_result`), and a driver (`main`).

Modelling conventions:

* C `float`/`double` values are modelled by exact rationals `ℚ`.  Claims
  about the rounding *policy* (which precision each operation uses) are
  modelled separately by a precision-annotated expression type `FpExpr`
  that records the operation structure of the inner loops.
* Tensors are total index functions (`ℕ → ... → ℚ`).  `student_conv`
  accesses the kernel and output tensors through the flattened pointers
  `kernel_pointer = ***kernels` and `output_pointer = **output`; the
  corresponding index arithmetic from the source is modelled by
  `kernel_index` / `out_index`, and `kernel_flat` reads the contiguous
  kernel buffer back as a 4-d tensor.
* OpenMP semantics are honoured.  The outer `#pragma omp parallel for`
  over `m` writes disjoint output slices, so its result is the same
  per-cell value function as a sequential loop.  The inner
  `#pragma omp parallel for private(x, sum)` in the `kernel_order == 1`
  branch of `student_conv` makes `sum` private to the nested region
  (uninitialised on entry and not copied back on exit), so the
  accumulation performed by that branch is discarded and the enclosing
  `sum` keeps its initial value `0.0`.
-/

namespace VectorConv

/-- Image tensor `image[w][h][c]` as a total index function; the driver
allocates it with spatial extents `width + kernel_order` and
`height + kernel_order`. -/
abbrev Image := ℕ → ℕ → ℕ → ℚ

/-- Kernel tensor `kernels[m][c][x][y]` as a total index function; the
element values are 16-bit integers, embedded in `ℚ`. -/
abbrev Kernels := ℕ → ℕ → ℕ → ℕ → ℚ

/-- Flat index of `kernels[m][c][x][y]` in the contiguous backing buffer
`kernel_pointer = ***kernels`.  The source computes
`m_index = m * (kernel_order_squared * nchannels)`,
`c_index = c * kernel_order_squared + m_index`,
`x_index = x * kernel_order + c_index` and accesses
`kernel_pointer[y + x_index]`. -/
def kernel_index (nchannels kernel_order m c x y : ℕ) : ℕ :=
  y + (x * kernel_order + (c * (kernel_order * kernel_order) +
    m * (kernel_order * kernel_order * nchannels)))

/-- Reading the contiguous kernel buffer back as the 4-d tensor it was
flattened from (the layout produced by `new_empty_4d_matrix_int16`, which
backs all four dimensions with one `mat3` allocation). -/
def kernel_flat (kernels : Kernels) (nchannels kernel_order : ℕ) : ℕ → ℚ :=
  fun i =>
    kernels (i / (kernel_order * kernel_order * nchannels))
      ((i / (kernel_order * kernel_order)) % nchannels)
      ((i / kernel_order) % kernel_order)
      (i % kernel_order)

/-- Flat index of `output[m][w][h]` in `output_pointer = **output`.  The
source computes `mo_index = m * (width * height)`,
`w_index = w * height + mo_index`, `h_index = h + w_index`. -/
def out_index (width height m w h : ℕ) : ℕ :=
  h + (w * height + m * (width * height))

/-- Value stored in output cell `(m, w, h)` by the reference
`multichannel_conv` (source lines 326–343): a running double `sum`
accumulates `image[w+x][h+y][c] * kernels[m][c][x][y]` over channel `c`,
kernel row `x` and kernel column `y`, modelled in exact arithmetic by
nested sums over the loop ranges. -/
def multichannel_conv_cell (image : Image) (kernels : Kernels)
    (nchannels kernel_order m w h : ℕ) : ℚ :=
  ((List.range nchannels).map (fun c =>
    ((List.range kernel_order).map (fun x =>
      ((List.range kernel_order).map (fun y =>
        image (w + x) (h + y) c * kernels m c x y)).sum)).sum)).sum

/-- Value stored in output cell `(m, w, h)` by `student_conv` (source
lines 369–449), branch by branch over `kernel_order`:

* `kernel_order == 1`: the loop body sits under
  `#pragma omp parallel for private(x, sum)`, so its additions go to a
  private copy of `sum` that is discarded when the nested region ends;
  the enclosing `sum` keeps its initial value `0.0`.
* `kernel_order == 3`: per row `x`, `_mm_mul_ps` multiplies the three
  image lanes `image[w+x][h..h+2][c]` by the three kernel lanes
  `kernel_pointer[x_index .. 2+x_index]` and `_mm_dp_ps` sums the three
  products; the exact value of that dot product is
  `i0*k0 + i1*k1 + i2*k2`.
* `kernel_order == 5`: per row `x`, packed-double multiplies and the
  `unpackhi`/`add_sd` sequence produce
  `(i3*k3 + i1*k1) + (i0*k0 + (i4*k4 + i2*k2))`.
* `kernel_order == 7`: per row `x`, seven unrolled scalar
  multiply-accumulates over columns `0..6`.
* any other `kernel_order`: no branch is taken and `sum` stays `0.0`.

Kernel elements are fetched through the flattened
`kernel_pointer[y + x_index]`, modelled by `kernel_flat`/`kernel_index`. -/
def student_conv_cell (image : Image) (kernels : Kernels)
    (nchannels kernel_order m w h : ℕ) : ℚ :=
  let kp := kernel_flat kernels nchannels kernel_order
  if kernel_order = 1 then
    0
  else if kernel_order = 3 then
    ((List.range nchannels).map (fun c =>
      ((List.range kernel_order).map (fun x =>
        image (w + x) h c * kp (kernel_index nchannels kernel_order m c x 0) +
        image (w + x) (h + 1) c * kp (kernel_index nchannels kernel_order m c x 1) +
        image (w + x) (h + 2) c * kp (kernel_index nchannels kernel_order m c x 2))).sum)).sum
  else if kernel_order = 5 then
    ((List.range nchannels).map (fun c =>
      ((List.range kernel_order).map (fun x =>
        (image (w + x) (h + 3) c * kp (kernel_index nchannels kernel_order m c x 3) +
         image (w + x) (h + 1) c * kp (kernel_index nchannels kernel_order m c x 1)) +
        (image (w + x) h c * kp (kernel_index nchannels kernel_order m c x 0) +
         (image (w + x) (h + 4) c * kp (kernel_index nchannels kernel_order m c x 4) +
          image (w + x) (h + 2) c * kp (kernel_index nchannels kernel_order m c x 2))))).sum)).sum
  else if kernel_order = 7 then
    ((List.range nchannels).map (fun c =>
      ((List.range kernel_order).map (fun x =>
        image (w + x) h c * kp (kernel_index nchannels kernel_order m c x 0) +
        image (w + x) (h + 1) c * kp (kernel_index nchannels kernel_order m c x 1) +
        image (w + x) (h + 2) c * kp (kernel_index nchannels kernel_order m c x 2) +
        image (w + x) (h + 3) c * kp (kernel_index nchannels kernel_order m c x 3) +
        image (w + x) (h + 4) c * kp (kernel_index nchannels kernel_order m c x 4) +
        image (w + x) (h + 5) c * kp (kernel_index nchannels kernel_order m c x 5) +
        image (w + x) (h + 6) c * kp (kernel_index nchannels kernel_order m c x 6))).sum)).sum
  else
    0

/-- Index triples `(i, j, k)` enumerated by the three nested loops of
`check_result`. -/
def check_triples (dim0 dim1 dim2 : ℕ) : List (ℕ × ℕ × ℕ) :=
  (List.range dim0).flatMap (fun i =>
    (List.range dim1).flatMap (fun j =>
      (List.range dim2).map (fun k => (i, j, k))))

/-- One iteration of the accumulation loop in `check_result` (source
lines 295–306): take the absolute difference of one cell,
`assert(diff >= 0.0)` (modelled as aborting with `none` when the
assertion fails), and add the difference to the running sum. -/
def check_step (result control : ℕ → ℕ → ℕ → ℚ) (acc : Option ℚ)
    (ijk : ℕ × ℕ × ℕ) : Option ℚ :=
  match acc with
  | none => none
  | some s =>
    let diff := |control ijk.1 ijk.2.1 ijk.2.2 - result ijk.1 ijk.2.1 ijk.2.2|
    if 0 ≤ diff then some (s + diff) else none

/-- Model of `check_result(result, control, dim0, dim1, dim2)` (source
lines 286–317): accumulate the sum of absolute differences over all
cells, then compare with `EPSILON = 0.0625`.  The returned Boolean is the
classification (`true` = suspect, the `WARNING` branch; `false` =
acceptable); `none` would mean the `assert` aborted the run.  Both
classification branches return normally in the source. -/
def check_result (result control : ℕ → ℕ → ℕ → ℚ) (dim0 dim1 dim2 : ℕ) :
    Option (ℚ × Bool) :=
  match (check_triples dim0 dim1 dim2).foldl (check_step result control) (some 0) with
  | none => none
  | some sad => some (sad, decide (sad > (0.0625 : ℚ)))

/-- Specification-side formula for the equivalence checker (spec §4.3):
the sum, over all cells, of the absolute differences between the control
and candidate outputs.  This definition follows the spec's words and is
compared against `check_result`, which is translated from the source. -/
def sad_spec (result control : ℕ → ℕ → ℕ → ℚ) (dim0 dim1 dim2 : ℕ) : ℚ :=
  ∑ i ∈ Finset.range dim0, ∑ j ∈ Finset.range dim1, ∑ k ∈ Finset.range dim2,
    |control i j k - result i j k|

/-- Sequence of output-cell writes performed by `multichannel_conv`, in
program order.  The store `output[m][w][h] = (float)sum` (source line 342)
sits *inside* the channel loop, so each cell `(m, w, h)` is written once
per channel. -/
def multichannel_conv_writes (width height nchannels nkernels : ℕ) :
    List (ℕ × ℕ × ℕ) :=
  (List.range nkernels).flatMap (fun m =>
    (List.range width).flatMap (fun w =>
      (List.range height).flatMap (fun h =>
        (List.range nchannels).map (fun _ => (m, w, h)))))

/-- Sequence of writes to `output_pointer` performed by `student_conv`, in
program order.  The store `output_pointer[h_index] = (float)sum` (source
line 448) sits outside the channel loop, so each `(m, w, h)` contributes
one write at flat index `h_index = out_index width height m w h`. -/
def student_conv_writes (width height nkernels : ℕ) : List ℕ :=
  (List.range nkernels).flatMap (fun m =>
    (List.range width).flatMap (fun w =>
      (List.range height).map (fun h => out_index width height m w h)))

/-- Image elements read by `student_conv`, in program order: the branch on
`kernel_order` selects which window cells each specialization reads, and
no branch is taken (hence nothing is read) for a `kernel_order` outside
{1, 3, 5, 7}. -/
def student_conv_image_reads
    (width height nchannels nkernels kernel_order : ℕ) : List (ℕ × ℕ × ℕ) :=
  (List.range nkernels).flatMap (fun _m =>
    (List.range width).flatMap (fun w =>
      (List.range height).flatMap (fun h =>
        (List.range nchannels).flatMap (fun c =>
          if kernel_order = 1 then
            (List.range kernel_order).flatMap (fun x => [(w + x, h, c)])
          else if kernel_order = 3 then
            (List.range kernel_order).flatMap (fun x =>
              [(w + x, h, c), (w + x, h + 1, c), (w + x, h + 2, c)])
          else if kernel_order = 5 then
            (List.range kernel_order).flatMap (fun x =>
              [(w + x, h, c), (w + x, h + 1, c), (w + x, h + 2, c),
               (w + x, h + 3, c), (w + x, h + 4, c)])
          else if kernel_order = 7 then
            (List.range kernel_order).flatMap (fun x =>
              [(w + x, h, c), (w + x, h + 1, c), (w + x, h + 2, c),
               (w + x, h + 3, c), (w + x, h + 4, c), (w + x, h + 5, c),
               (w + x, h + 6, c)])
          else []))))

/-- Kernel elements (flat indices into `kernel_pointer`) read by
`student_conv`, in program order; as with the image reads, nothing is read
for a `kernel_order` outside {1, 3, 5, 7}. -/
def student_conv_kernel_reads
    (width height nchannels nkernels kernel_order : ℕ) : List ℕ :=
  (List.range nkernels).flatMap (fun m =>
    (List.range width).flatMap (fun _w =>
      (List.range height).flatMap (fun _h =>
        (List.range nchannels).flatMap (fun c =>
          if kernel_order = 1 then
            (List.range kernel_order).flatMap (fun x =>
              [kernel_index nchannels kernel_order m c x 0])
          else if kernel_order = 3 then
            (List.range kernel_order).flatMap (fun x =>
              [kernel_index nchannels kernel_order m c x 0,
               kernel_index nchannels kernel_order m c x 1,
               kernel_index nchannels kernel_order m c x 2])
          else if kernel_order = 5 then
            (List.range kernel_order).flatMap (fun x =>
              [kernel_index nchannels kernel_order m c x 0,
               kernel_index nchannels kernel_order m c x 1,
               kernel_index nchannels kernel_order m c x 2,
               kernel_index nchannels kernel_order m c x 3,
               kernel_index nchannels kernel_order m c x 4])
          else if kernel_order = 7 then
            (List.range kernel_order).flatMap (fun x =>
              [kernel_index nchannels kernel_order m c x 0,
               kernel_index nchannels kernel_order m c x 1,
               kernel_index nchannels kernel_order m c x 2,
               kernel_index nchannels kernel_order m c x 3,
               kernel_index nchannels kernel_order m c x 4,
               kernel_index nchannels kernel_order m c x 5,
               kernel_index nchannels kernel_order m c x 6])
          else []))))

/-- Multiply-accumulate operations performed by `multichannel_conv` for
one output cell, in program order (channel-major, then kernel row `x`,
then kernel column `y`), as the list of factor pairs
(image element, kernel element). -/
def multichannel_mac_trace (image : Image) (kernels : Kernels)
    (nchannels kernel_order m w h : ℕ) : List (ℚ × ℚ) :=
  (List.range nchannels).flatMap (fun c =>
    (List.range kernel_order).flatMap (fun x =>
      (List.range kernel_order).map (fun y =>
        (image (w + x) (h + y) c, kernels m c x y))))

/-- Multiply-accumulate operations performed by the `kernel_order == 7`
branch of `student_conv` for one output cell, in program order: per
channel and kernel row, the seven unrolled `sum += ...` statements fetch
`image[w+x][h+y][c]` and `kernel_pointer[y + x_index]` for `y = 0..6`. -/
def student_mac_trace7 (image : Image) (kernels : Kernels)
    (nchannels m w h : ℕ) : List (ℚ × ℚ) :=
  let kp := kernel_flat kernels nchannels 7
  (List.range nchannels).flatMap (fun c =>
    (List.range 7).flatMap (fun x =>
      [(image (w + x) h c, kp (kernel_index nchannels 7 m c x 0)),
       (image (w + x) (h + 1) c, kp (kernel_index nchannels 7 m c x 1)),
       (image (w + x) (h + 2) c, kp (kernel_index nchannels 7 m c x 2)),
       (image (w + x) (h + 3) c, kp (kernel_index nchannels 7 m c x 3)),
       (image (w + x) (h + 4) c, kp (kernel_index nchannels 7 m c x 4)),
       (image (w + x) (h + 5) c, kp (kernel_index nchannels 7 m c x 5)),
       (image (w + x) (h + 6) c, kp (kernel_index nchannels 7 m c x 6))]))

/-- Validation performed by `main` before anything else runs (source lines
484–508): a wrong argument count or a `kernel_order` outside {1, 3, 5, 7}
calls `exit(1)`.  The parsed dimensions are C `int`s, modelled by `ℤ`;
note that `main` performs no positivity check on them. -/
def main_guard (argc : ℕ)
    (width height kernel_order nchannels nkernels : ℤ) : Bool :=
  if argc ≠ 6 then
    false
  else if kernel_order = 1 ∨ kernel_order = 3 ∨ kernel_order = 5 ∨ kernel_order = 7 then
    true
  else
    false

/-- Model of `main` after argument parsing (source lines 468–548): if the
guard passes, the driver allocates the tensors, runs `multichannel_conv`
to produce the control output, runs `student_conv` to produce the
candidate output, and compares them with
`check_result(output, control_output, nkernels, width, height)`; `none`
models `exit(1)` before either convolution runs.  The random tensors
produced by `gen_random_3d_matrix_float` / `gen_random_4d_matrix_int16`
are abstracted as the parameters `image` and `kernels`. -/
def main_model (argc : ℕ)
    (width height kernel_order nchannels nkernels : ℤ)
    (image : Image) (kernels : Kernels) : Option (ℚ × Bool) :=
  if main_guard argc width height kernel_order nchannels nkernels then
    check_result
      (fun m w h =>
        student_conv_cell image kernels nchannels.toNat kernel_order.toNat m w h)
      (fun m w h =>
        multichannel_conv_cell image kernels nchannels.toNat kernel_order.toNat m w h)
      nkernels.toNat width.toNat height.toNat
  else
    none

/-- Precision of a floating-point operation: 32-bit `float` (single) or
64-bit `double`. -/
inductive Prec where
  | single
  | double
deriving DecidableEq, BEq

/-- Precision-annotated expression recording which floating-point
operations `student_conv` performs to produce one stored output value and
at which precision each runs: `img`/`ker` are tensor elements (a 32-bit
float and a 16-bit integer respectively), `zeroD` is the double literal
`0.0`, `cvt` is a conversion to the given precision, and `mul`/`add` are
arithmetic at the given precision. -/
inductive FpExpr where
  | img (w h c : ℕ)
  | ker (m c x y : ℕ)
  | zeroD
  | cvt (p : Prec) (e : FpExpr)
  | mul (p : Prec) (a b : FpExpr)
  | add (p : Prec) (a b : FpExpr)
deriving DecidableEq, BEq

/-- Operation structure of the scalar product
`image[w+x][h+y][c] * kernel_pointer[y + x_index]`: C promotes the
`int16_t` operand through `int` to `float` and multiplies in single
precision.  Used by the order-1 and order-7 branches (and by the
reference). -/
def scalarProdExpr (m c x y w h : ℕ) : FpExpr :=
  .mul .single (.img (w + x) (h + y) c) (.cvt .single (.ker m c x y))

/-- Operation structure of one order-3 row reduction: `_mm_set_ps`
converts the three kernel elements to `float`, `_mm_mul_ps` forms three
single-precision products, and `_mm_dp_ps` sums them in single
precision. -/
def row3Expr (m c x w h : ℕ) : FpExpr :=
  .add .single
    (.add .single (scalarProdExpr m c x 0 w h) (scalarProdExpr m c x 1 w h))
    (scalarProdExpr m c x 2 w h)

/-- Operation structure of one order-5 product: `_mm_set_pd` /
`_mm_set_sd` convert both the image element and the kernel element to
`double` before a double-precision multiply. -/
def prod5Expr (m c x y w h : ℕ) : FpExpr :=
  .mul .double (.cvt .double (.img (w + x) (h + y) c))
    (.cvt .double (.ker m c x y))

/-- Operation structure of one order-5 row reduction: the packed adds and
the `unpackhi`/`add_sd` sequence combine the five double-precision
products as `(p3 + p1) + (p0 + (p4 + p2))`, all in double precision. -/
def row5Expr (m c x w h : ℕ) : FpExpr :=
  .add .double
    (.add .double (prod5Expr m c x 3 w h) (prod5Expr m c x 1 w h))
    (.add .double (prod5Expr m c x 0 w h)
      (.add .double (prod5Expr m c x 4 w h) (prod5Expr m c x 2 w h)))

/-- Row indices `(c, x)` of the channel and kernel-row loops, in program
order. -/
def rowIndices (nchannels kernel_order : ℕ) : List (ℕ × ℕ) :=
  (List.range nchannels).flatMap (fun c =>
    (List.range kernel_order).map (fun x => (c, x)))

/-- Multiply-accumulate indices `(c, x, y)` of the order-7 branch: per
channel and kernel row, the seven unrolled statements touch columns
`0..6` in order. -/
def macIndices7 (nchannels : ℕ) : List (ℕ × ℕ × ℕ) :=
  (List.range nchannels).flatMap (fun c =>
    (List.range 7).flatMap (fun x =>
      [(c, x, 0), (c, x, 1), (c, x, 2), (c, x, 3), (c, x, 4), (c, x, 5),
       (c, x, 6)]))

/-- Operation structure of the value `student_conv` stores into one output
cell: the running `sum` is a C `double` initialised to `0.0`, each branch
accumulates into it with double-precision additions of its row results
(converted from `float` where the row result is single precision), and
the store `output_pointer[h_index] = (float)sum` narrows once to single
precision.  In the `kernel_order == 1` branch the nested
`parallel for private(x, sum)` region discards its accumulation, so the
stored expression is the narrowed initial `0.0`. -/
def studentCellExpr (nchannels kernel_order m w h : ℕ) : FpExpr :=
  .cvt .single
    (if kernel_order = 1 then
      FpExpr.zeroD
    else if kernel_order = 3 then
      (rowIndices nchannels kernel_order).foldl
        (fun s cx => .add .double s (.cvt .double (row3Expr m cx.1 cx.2 w h)))
        .zeroD
    else if kernel_order = 5 then
      (rowIndices nchannels kernel_order).foldl
        (fun s cx => .add .double s (row5Expr m cx.1 cx.2 w h))
        .zeroD
    else if kernel_order = 7 then
      (macIndices7 nchannels).foldl
        (fun s cxy =>
          .add .double s (.cvt .double (scalarProdExpr m cxy.1 cxy.2.1 cxy.2.2 w h)))
        .zeroD
    else
      FpExpr.zeroD)

/-- Test whether an expression is a bare (unconverted) 16-bit kernel
element. -/
def isBareKer : FpExpr → Bool
  | .ker _ _ _ _ => true
  | _ => false

/-- Test whether every multiplication operand that is a kernel element has
been promoted (converted to `float` or `double`) before the multiply. -/
def intPromoted : FpExpr → Bool
  | .img _ _ _ => true
  | .ker _ _ _ _ => true
  | .zeroD => true
  | .cvt _ e => intPromoted e
  | .mul _ a b => !isBareKer a && !isBareKer b && intPromoted a && intPromoted b
  | .add _ a b => !isBareKer a && !isBareKer b && intPromoted a && intPromoted b

/-- Test whether every addition in the expression runs in double
precision. -/
def addsAllDouble : FpExpr → Bool
  | .img _ _ _ => true
  | .ker _ _ _ _ => true
  | .zeroD => true
  | .cvt _ e => addsAllDouble e
  | .mul _ a b => addsAllDouble a && addsAllDouble b
  | .add .single _ _ => false
  | .add .double a b => addsAllDouble a && addsAllDouble b

/-- Test whether the value of an expression is a double-precision value. -/
def isDoubleValued : FpExpr → Bool
  | .img _ _ _ => false
  | .ker _ _ _ _ => false
  | .zeroD => true
  | .cvt .single _ => false
  | .cvt .double _ => true
  | .mul .single _ _ => false
  | .mul .double _ _ => true
  | .add .single _ _ => false
  | .add .double _ _ => true

/-- Count the narrowings in an expression: conversions that take a
double-precision value down to single precision. -/
def narrowCount : FpExpr → ℕ
  | .img _ _ _ => 0
  | .ker _ _ _ _ => 0
  | .zeroD => 0
  | .cvt .single e => (if isDoubleValued e then 1 else 0) + narrowCount e
  | .cvt .double e => narrowCount e
  | .mul _ a b => narrowCount a + narrowCount b
  | .add _ a b => narrowCount a + narrowCount b

/-- Test whether every addition on the accumulator spine (the chain of
additions into the running `sum`) is double precision; row-internal
additions are not on the spine. -/
def spineAddsDouble : FpExpr → Bool
  | .add .single _ _ => false
  | .add .double a _ => spineAddsDouble a
  | .cvt _ e => spineAddsDouble e
  | _ => true

/-- Transposition of channels 0 and 1, used as a concrete channel
permutation. -/
def swap01 : ℕ → ℕ :=
  fun c => if c = 0 then 1 else if c = 1 then 0 else c

/-- Accumulating a function over `List.range` (the loop form) agrees with
the `Finset.range` sum. -/
theorem sum_map_range {M : Type*} [AddCommMonoid M] (f : ℕ → M) (n : ℕ) :
    ((List.range n).map f).sum = ∑ i ∈ Finset.range n, f i := by
  induction n with
  | zero => simp
  | succ n ih =>
    rw [List.range_succ, Finset.sum_range_succ, List.map_append, List.sum_append]
    simp [ih]

/-- Summing a function over a flattened list equals the sum of the inner
sums. -/
theorem sum_map_flatMap {α β : Type*} {M : Type*} [AddCommMonoid M]
    (l : List α) (f : α → List β) (g : β → M) :
    ((l.flatMap f).map g).sum = (l.map (fun a => ((f a).map g).sum)).sum := by
  induction l with
  | nil => simp
  | cons a l ih => simp [List.flatMap_cons, ih]

/-- Counting matches in a flattened list equals the sum of the inner
counts. -/
theorem countP_flatMap_sum {α β : Type*} (l : List α) (f : α → List β)
    (p : β → Bool) :
    (l.flatMap f).countP p = (l.map (fun a => (f a).countP p)).sum := by
  induction l with
  | nil => simp
  | cons a l ih => simp [List.flatMap_cons, List.countP_append, ih]

/-- Counting matches in a constant-valued map over a list. -/
theorem countP_const_map {α β : Type*} (l : List α) (v : β) (p : β → Bool) :
    (l.map (fun _ => v)).countP p = if p v then l.length else 0 := by
  induction l with
  | nil => simp
  | cons a l ih =>
    rw [List.map_cons, List.countP_cons, ih]
    by_cases h : p v <;> simp [h]

/-- Unfolded form of `kernel_index`, exposing the mixed-radix structure of
the flat kernel layout. -/
theorem kernel_index_eq (nchannels kernel_order m c x y : ℕ) :
    kernel_index nchannels kernel_order m c x y
      = y + kernel_order * (x + kernel_order * (c + nchannels * m)) := by
  unfold kernel_index
  ring

/-- Reading the flat kernel buffer at the index `student_conv` computes
recovers exactly the tensor element `kernels[m][c][x][y]` the reference
uses, for in-range `c`, `x`, `y`. -/
theorem kernel_flat_index (kernels : Kernels)
    (nchannels kernel_order m c x y : ℕ)
    (hc : c < nchannels) (hx : x < kernel_order) (hy : y < kernel_order) :
    kernel_flat kernels nchannels kernel_order
        (kernel_index nchannels kernel_order m c x y) = kernels m c x y := by
  have hK : 0 < kernel_order := lt_of_le_of_lt (Nat.zero_le x) hx
  have hN : 0 < nchannels := lt_of_le_of_lt (Nat.zero_le c) hc
  have h1 : kernel_index nchannels kernel_order m c x y % kernel_order = y := by
    rw [kernel_index_eq, Nat.add_mul_mod_self_left, Nat.mod_eq_of_lt hy]
  have hd1 : kernel_index nchannels kernel_order m c x y / kernel_order
      = x + kernel_order * (c + nchannels * m) := by
    rw [kernel_index_eq, Nat.add_mul_div_left _ _ hK, Nat.div_eq_of_lt hy,
      Nat.zero_add]
  have h2 : kernel_index nchannels kernel_order m c x y / kernel_order %
      kernel_order = x := by
    rw [hd1, Nat.add_mul_mod_self_left, Nat.mod_eq_of_lt hx]
  have hd2 : kernel_index nchannels kernel_order m c x y /
      (kernel_order * kernel_order) = c + nchannels * m := by
    rw [← Nat.div_div_eq_div_mul, hd1, Nat.add_mul_div_left _ _ hK,
      Nat.div_eq_of_lt hx, Nat.zero_add]
  have h3 : kernel_index nchannels kernel_order m c x y /
      (kernel_order * kernel_order) % nchannels = c := by
    rw [hd2, Nat.add_mul_mod_self_left, Nat.mod_eq_of_lt hc]
  have h4 : kernel_index nchannels kernel_order m c x y /
      (kernel_order * kernel_order * nchannels) = m := by
    rw [← Nat.div_div_eq_div_mul, hd2, Nat.add_mul_div_left _ _ hN,
      Nat.div_eq_of_lt hc, Nat.zero_add]
  unfold kernel_flat
  rw [h4, h3, h2, h1]

/-- Unfolded form of `out_index`, exposing the mixed-radix structure of
the flat output layout. -/
theorem out_index_eq (width height m w h : ℕ) :
    out_index width height m w h = h + height * (w + width * m) := by
  unfold out_index
  ring

/-- Distinct output cells of `student_conv` go to distinct flat indices of
`output_pointer`. -/
theorem out_index_inj (width height m1 w1 h1 m2 w2 h2 : ℕ)
    (hw1 : w1 < width) (hh1 : h1 < height) (hw2 : w2 < width)
    (hh2 : h2 < height)
    (heq : out_index width height m1 w1 h1 = out_index width height m2 w2 h2) :
    m1 = m2 ∧ w1 = w2 ∧ h1 = h2 := by
  have hH : 0 < height := lt_of_le_of_lt (Nat.zero_le h1) hh1
  have hW : 0 < width := lt_of_le_of_lt (Nat.zero_le w1) hw1
  rw [out_index_eq, out_index_eq] at heq
  have hh : h1 = h2 := by
    have e := congrArg (fun t => t % height) heq
    simpa [Nat.add_mul_mod_self_left, Nat.mod_eq_of_lt hh1,
      Nat.mod_eq_of_lt hh2] using e
  have hq : w1 + width * m1 = w2 + width * m2 := by
    have e := congrArg (fun t => t / height) heq
    simpa [Nat.add_mul_div_left _ _ hH, Nat.div_eq_of_lt hh1,
      Nat.div_eq_of_lt hh2] using e
  have hw : w1 = w2 := by
    have e := congrArg (fun t => t % width) hq
    simpa [Nat.add_mul_mod_self_left, Nat.mod_eq_of_lt hw1,
      Nat.mod_eq_of_lt hw2] using e
  have hm : m1 = m2 := by
    have e := congrArg (fun t => t / width) hq
    simpa [Nat.add_mul_div_left _ _ hW, Nat.div_eq_of_lt hw1,
      Nat.div_eq_of_lt hw2] using e
  exact ⟨hm, hw, hh⟩

/-- One pass of the `check_result` accumulation loop over any index list:
the assertion `diff >= 0.0` always holds, so the loop never aborts and
returns the running sum plus the sum of the absolute differences. -/
theorem check_foldl_eq (result control : ℕ → ℕ → ℕ → ℚ)
    (l : List (ℕ × ℕ × ℕ)) (s : ℚ) :
    l.foldl (check_step result control) (some s)
      = some (s + (l.map (fun ijk =>
          |control ijk.1 ijk.2.1 ijk.2.2 - result ijk.1 ijk.2.1 ijk.2.2|)).sum) := by
  induction l generalizing s with
  | nil => simp
  | cons a l ih =>
    have hstep : check_step result control (some s) a
        = some (s + |control a.1 a.2.1 a.2.2 - result a.1 a.2.1 a.2.2|) := by
      simp [check_step, abs_nonneg]
    rw [List.foldl_cons, hstep, ih, List.map_cons, List.sum_cons, add_assoc]

/-- Closed form of `check_result`: it always returns normally, with the
sum of absolute differences of the spec's formula and the classification
obtained by comparing that sum with `EPSILON = 0.0625`. -/
theorem check_result_eq (result control : ℕ → ℕ → ℕ → ℚ)
    (dim0 dim1 dim2 : ℕ) :
    check_result result control dim0 dim1 dim2
      = some (sad_spec result control dim0 dim1 dim2,
          decide (sad_spec result control dim0 dim1 dim2 > (0.0625 : ℚ))) := by
  have hsum : ((check_triples dim0 dim1 dim2).map (fun ijk =>
      |control ijk.1 ijk.2.1 ijk.2.2 - result ijk.1 ijk.2.1 ijk.2.2|)).sum
      = sad_spec result control dim0 dim1 dim2 := by
    unfold check_triples sad_spec
    rw [sum_map_flatMap]
    rw [← sum_map_range]
    refine congrArg _ (List.map_congr_left fun i _ => ?_)
    rw [sum_map_flatMap]
    rw [← sum_map_range]
    refine congrArg _ (List.map_congr_left fun j _ => ?_)
    rw [List.map_map, ← sum_map_range]
    rfl
  unfold check_result
  rw [check_foldl_eq, zero_add, hsum]

/-- Characterisation of the driver's validation: the run proceeds past
`main`'s checks exactly when the argument count is 6 and the kernel order
is one of {1, 3, 5, 7}; the dimensions are not consulted. -/
theorem main_guard_eq_true_iff (argc : ℕ)
    (width height kernel_order nchannels nkernels : ℤ) :
    main_guard argc width height kernel_order nchannels nkernels = true
      ↔ (argc = 6 ∧ (kernel_order = 1 ∨ kernel_order = 3 ∨ kernel_order = 5 ∨
          kernel_order = 7)) := by
  unfold main_guard
  by_cases h6 : argc = 6 <;>
    by_cases hk : kernel_order = 1 ∨ kernel_order = 3 ∨ kernel_order = 5 ∨
      kernel_order = 7 <;>
    simp [h6, hk]

/-- C3: the equivalence checker `check_result` computes `S` as the sum
over all `(m, w, h)` of the absolute differences between control and
candidate, classifies the run as suspect (`true`) exactly when `S`
exceeds `EPSILON = 0.0625` and as acceptable otherwise, returns normally
in either case (the assertion `diff >= 0.0` never aborts the run), and
every per-element difference it accumulates is non-negative. -/
theorem C3_check_result_contract (result control : ℕ → ℕ → ℕ → ℚ)
    (dim0 dim1 dim2 : ℕ) :
    check_result result control dim0 dim1 dim2
      = some (sad_spec result control dim0 dim1 dim2,
          decide (sad_spec result control dim0 dim1 dim2 > (0.0625 : ℚ)))
    ∧ (∀ i j k, 0 ≤ |control i j k - result i j k|) :=
  ⟨check_result_eq result control dim0 dim1 dim2, fun _ _ _ => abs_nonneg _⟩

/-- C1 (failing input): with width = height = nchannels = nkernels = 1,
kernel_order = 1, every image element 2.0 and every kernel element 3, the
sum of absolute differences between `student_conv` and
`multichannel_conv` is 6, far above the 0.0625 threshold, and
`check_result` classifies the run as suspect: the `kernel_order == 1`
branch of `student_conv` discards its accumulation (the nested
`parallel for private(x, sum)` region), so the candidate output is 0
while the control output is 6. -/
theorem C1_order1_sad_exceeds_epsilon :
    check_result
        (fun m w h =>
          student_conv_cell (fun _ _ _ => 2) (fun _ _ _ _ => 3) 1 1 m w h)
        (fun m w h =>
          multichannel_conv_cell (fun _ _ _ => 2) (fun _ _ _ _ => 3) 1 1 m w h)
        1 1 1
      = some (6, true) := by
  rw [check_result_eq]
  have hs : sad_spec
      (fun m w h =>
        student_conv_cell (fun _ _ _ => 2) (fun _ _ _ _ => 3) 1 1 m w h)
      (fun m w h =>
        multichannel_conv_cell (fun _ _ _ => 2) (fun _ _ _ _ => 3) 1 1 m w h)
      1 1 1 = 6 := by
    simp [sad_spec, student_conv_cell, multichannel_conv_cell, List.range_succ]
    norm_num
  rw [hs]
  norm_num

/-- C2 (failing input): with width = height = nchannels = nkernels = 1 and
kernel_order = 1, every image element 2.0 and every kernel element 3,
`student_conv` stores 0 into the single output cell (its accumulation is
discarded by the nested `parallel for private(x, sum)` region) while
`multichannel_conv` stores 6, so the two outputs are not equal cell for
cell. -/
theorem C2_order1_outputs_differ :
    student_conv_cell (fun _ _ _ => 2) (fun _ _ _ _ => 3) 1 1 0 0 0 = 0
    ∧ multichannel_conv_cell (fun _ _ _ => 2) (fun _ _ _ _ => 3) 1 1 0 0 0 = 6
    ∧ student_conv_cell (fun _ _ _ => 2) (fun _ _ _ _ => 3) 1 1 0 0 0
        ≠ multichannel_conv_cell (fun _ _ _ => 2) (fun _ _ _ _ => 3) 1 1 0 0 0 := by
  refine ⟨by simp [student_conv_cell], ?_, ?_⟩
  · simp [multichannel_conv_cell, List.range_succ]
    norm_num
  · simp [student_conv_cell, multichannel_conv_cell, List.range_succ]

/-- C6 (counterexample): it is not the case that every configuration
error is rejected before the convolutions run: a non-positive dimension
(here width = 0, with a valid kernel order 3) passes `main`'s validation,
which only inspects the argument count and the kernel order. -/
theorem C6_dimension_check_missing :
    ¬ (∀ width height kernel_order nchannels nkernels : ℤ,
        (¬ (kernel_order = 1 ∨ kernel_order = 3 ∨ kernel_order = 5 ∨
            kernel_order = 7)
          ∨ width ≤ 0 ∨ height ≤ 0 ∨ nchannels ≤ 0 ∨ nkernels ≤ 0) →
        main_guard 6 width height kernel_order nchannels nkernels = false) := by
  intro hall
  have h := hall 0 1 3 1 1 (Or.inr (Or.inl le_rfl))
  simp [main_guard] at h

/-- C6 (amended): `main` exits fatally before either convolution runs
exactly when the argument count is wrong or the kernel order is outside
{1, 3, 5, 7}; an invalid kernel order is always caught there, but
non-positive dimensions are not checked at all. -/
theorem C6_guard_characterisation (argc : ℕ)
    (width height kernel_order nchannels nkernels : ℤ)
    (image : Image) (kernels : Kernels) :
    main_model argc width height kernel_order nchannels nkernels image kernels
        = none
      ↔ (argc ≠ 6 ∨ ¬ (kernel_order = 1 ∨ kernel_order = 3 ∨ kernel_order = 5 ∨
          kernel_order = 7)) := by
  unfold main_model
  by_cases hg : main_guard argc width height kernel_order nchannels nkernels
      = true
  · rw [if_pos hg, check_result_eq]
    rw [main_guard_eq_true_iff] at hg
    simp [hg.1, hg.2]
  · rw [if_neg hg]
    rw [main_guard_eq_true_iff] at hg
    simp only [not_and, not_or] at hg ⊢
    simp
    tauto

/-- C7: with width = height = nchannels = nkernels = 1 and
kernel_order = 3, an all-ones image of shape (1+3)×(1+3)×1 and an
all-ones kernel of shape 1×1×3×3, both `multichannel_conv` and
`student_conv` produce the single output value 9.0. -/
theorem C7_all_ones_scenario :
    multichannel_conv_cell (fun _ _ _ => 1) (fun _ _ _ _ => 1) 1 3 0 0 0 = 9
    ∧ student_conv_cell (fun _ _ _ => 1) (fun _ _ _ _ => 1) 1 3 0 0 0 = 9 := by
  constructor
  · simp [multichannel_conv_cell, List.range_succ]
    norm_num
  · simp [student_conv_cell, kernel_flat, kernel_index, List.range_succ]
    norm_num

/-- Counting matches equals summing indicator values over the list. -/
theorem countP_eq_sum_map {α : Type*} (l : List α) (p : α → Bool) :
    l.countP p = (l.map (fun a => if p a then 1 else 0)).sum := by
  induction l with
  | nil => simp
  | cons a l ih =>
    rw [List.countP_cons, List.map_cons, List.sum_cons, ih]
    by_cases h : p a <;> simp [h, Nat.add_comm]

/-- Flattening a family of empty lists yields the empty list. -/
theorem flatMap_const_nil {α β : Type*} (l : List α) :
    (l.flatMap fun _ => ([] : List β)) = [] := by
  induction l with
  | nil => simp
  | cons a l ih => simp [List.flatMap_cons, ih]

/-- Summing the indicator of one triple over the index box recovers the
value at that triple. -/
theorem sum_ite_triple (nk wd ht v m w h : ℕ)
    (hm : m < nk) (hw : w < wd) (hh : h < ht) :
    (∑ a ∈ Finset.range nk, ∑ b ∈ Finset.range wd, ∑ c ∈ Finset.range ht,
        if (a, b, c) = (m, w, h) then v else 0) = v := by
  simp only [← Finset.sum_product']
  rw [Finset.sum_ite_eq' (((Finset.range nk) ×ˢ
    ((Finset.range wd) ×ˢ (Finset.range ht)))) (m, w, h) (fun _ => v)]
  simp [Finset.mem_product, hm, hw, hh]

/-- C5 (counterexample): with nchannels = 2 (and all other shape
parameters 1), `multichannel_conv` writes its single output cell twice —
the store `output[m][w][h] = (float)sum` sits inside the channel loop —
so it is not the case that each output cell is written exactly once. -/
theorem C5_multichannel_cell_written_twice :
    (multichannel_conv_writes 1 1 2 1).countP (fun e => e = (0, 0, 0)) ≠ 1 := by
  decide

/-- C5 (amended): during one convolution call the image and kernel
tensors are only read (in this model the convolutions are pure functions
of them and their only stores are the output stores recorded in the write
traces); `student_conv` writes each output cell exactly once, while
`multichannel_conv` writes each output cell once per channel — nchannels
times, the last store holding the complete value. -/
theorem C5_write_discipline (width height nchannels nkernels m w h : ℕ)
    (hm : m < nkernels) (hw : w < width) (hh : h < height) :
    (multichannel_conv_writes width height nchannels nkernels).countP
        (fun e => e = (m, w, h)) = nchannels
    ∧ (student_conv_writes width height nkernels).countP
        (fun e => e = out_index width height m w h) = 1 := by
  constructor
  · unfold multichannel_conv_writes
    rw [countP_flatMap_sum, sum_map_range]
    have houter : ∀ a : ℕ,
        (((List.range width).flatMap fun b =>
          (List.range height).flatMap fun c =>
            (List.range nchannels).map fun _ => (a, b, c)).countP
              fun e => e = (m, w, h))
        = ∑ b ∈ Finset.range width, ∑ c ∈ Finset.range height,
            if (a, b, c) = (m, w, h) then nchannels else 0 := by
      intro a
      rw [countP_flatMap_sum, sum_map_range]
      refine Finset.sum_congr rfl fun b _ => ?_
      rw [countP_flatMap_sum, sum_map_range]
      refine Finset.sum_congr rfl fun c _ => ?_
      rw [countP_const_map]
      by_cases h : (a, b, c) = (m, w, h) <;> simp [h]
    calc (∑ a ∈ Finset.range nkernels,
          ((List.range width).flatMap fun b =>
            (List.range height).flatMap fun c =>
              (List.range nchannels).map fun _ => (a, b, c)).countP
                fun e => e = (m, w, h))
        = ∑ a ∈ Finset.range nkernels, ∑ b ∈ Finset.range width,
            ∑ c ∈ Finset.range height,
              if (a, b, c) = (m, w, h) then nchannels else 0 :=
          Finset.sum_congr rfl fun a _ => houter a
      _ = nchannels := sum_ite_triple _ _ _ _ m w h hm hw hh
  · unfold student_conv_writes
    rw [countP_flatMap_sum, sum_map_range]
    have houter : ∀ a : ℕ,
        (((List.range width).flatMap fun b =>
          (List.range height).map fun c =>
            out_index width height a b c).countP
              fun e => e = out_index width height m w h)
        = ∑ b ∈ Finset.range width, ∑ c ∈ Finset.range height,
            if (a, b, c) = (m, w, h) then 1 else 0 := by
      intro a
      rw [countP_flatMap_sum, sum_map_range]
      refine Finset.sum_congr rfl fun b hb => ?_
      rw [List.countP_map, countP_eq_sum_map, sum_map_range]
      refine Finset.sum_congr rfl fun c hc => ?_
      rw [Finset.mem_range] at hb hc
      by_cases hcase : (a, b, c) = (m, w, h)
      · simp only [Prod.mk.injEq] at hcase
        obtain ⟨rfl, rfl, rfl⟩ := hcase
        simp
      · rw [if_neg hcase]
        have hne : out_index width height a b c ≠ out_index width height m w h := by
          intro he
          obtain ⟨h1, h2, h3⟩ :=
            out_index_inj width height a b c m w h hb hc hw hh he
          exact hcase (by simp [h1, h2, h3])
        simp [Function.comp, hne]
    calc (∑ a ∈ Finset.range nkernels,
          ((List.range width).flatMap fun b =>
            (List.range height).map fun c =>
              out_index width height a b c).countP
                fun e => e = out_index width height m w h)
        = ∑ a ∈ Finset.range nkernels, ∑ b ∈ Finset.range width,
            ∑ c ∈ Finset.range height, if (a, b, c) = (m, w, h) then 1 else 0 :=
          Finset.sum_congr rfl fun a _ => houter a
      _ = 1 := sum_ite_triple _ _ _ _ m w h hm hw hh

/-- C5 (witness): at width = height = 2, nchannels = 3, nkernels = 2, the
cell (1, 0, 1) is written 3 times by the reference and once by
`student_conv`. -/
theorem C5_write_discipline_witness :
    (multichannel_conv_writes 2 2 3 2).countP (fun e => e = (1, 0, 1)) = 3
    ∧ (student_conv_writes 2 2 2).countP
        (fun e => e = out_index 2 2 1 0 1) = 1 :=
  C5_write_discipline 2 2 3 2 1 0 1 (by decide) (by decide) (by decide)

/-- C8: permuting the channel axis of the image and of the kernels by the
same permutation of `[0, nchannels)` leaves every output cell of
`multichannel_conv` unchanged, and each output cell depends only on the
image and kernel elements inside the declared index window
`image[w+x][h+y][c]`, `kernel[m][c][x][y]`. -/
theorem C8_channel_permutation_invariance (image : Image) (kernels : Kernels)
    (nchannels kernel_order m w h : ℕ) (σ τ : ℕ → ℕ)
    (hσ : ∀ c, c < nchannels → σ c < nchannels)
    (hτ : ∀ c, c < nchannels → τ c < nchannels)
    (hτσ : ∀ c, c < nchannels → τ (σ c) = c)
    (hστ : ∀ c, c < nchannels → σ (τ c) = c) :
    multichannel_conv_cell (fun w' h' c => image w' h' (σ c))
        (fun m' c x y => kernels m' (σ c) x y) nchannels kernel_order m w h
      = multichannel_conv_cell image kernels nchannels kernel_order m w h
    ∧ ∀ (image2 : Image) (kernels2 : Kernels),
        (∀ x y c, x < kernel_order → y < kernel_order → c < nchannels →
          image2 (w + x) (h + y) c = image (w + x) (h + y) c) →
        (∀ c x y, c < nchannels → x < kernel_order → y < kernel_order →
          kernels2 m c x y = kernels m c x y) →
        multichannel_conv_cell image2 kernels2 nchannels kernel_order m w h
          = multichannel_conv_cell image kernels nchannels kernel_order m w h := by
  constructor
  · unfold multichannel_conv_cell
    rw [sum_map_range, sum_map_range]
    refine Finset.sum_nbij' σ τ ?_ ?_ ?_ ?_ ?_
    · intro c hc
      rw [Finset.mem_range] at hc ⊢
      exact hσ c hc
    · intro c hc
      rw [Finset.mem_range] at hc ⊢
      exact hτ c hc
    · intro c hc
      rw [Finset.mem_range] at hc
      exact hτσ c hc
    · intro c hc
      rw [Finset.mem_range] at hc
      exact hστ c hc
    · intro c _
      rfl
  · intro image2 kernels2 himg hker
    unfold multichannel_conv_cell
    refine congrArg List.sum (List.map_congr_left fun c hc => ?_)
    refine congrArg List.sum (List.map_congr_left fun x hx => ?_)
    refine congrArg List.sum (List.map_congr_left fun y hy => ?_)
    rw [List.mem_range] at hc hx hy
    rw [himg x y c hx hy hc, hker c x y hc hx hy]

/-- C8 (witness): a concrete instance with nchannels = 2 and the
transposition of channels 0 and 1. -/
theorem C8_channel_permutation_invariance_witness :
    multichannel_conv_cell
        (fun w' h' c => (fun _ h'' c' => (h'' + 2 * c' : ℚ)) w' h' (swap01 c))
        (fun m' c x y => (fun _ c' x' y' => (c' + x' + y' : ℚ)) m' (swap01 c) x y)
        2 3 0 0 0
      = multichannel_conv_cell (fun _ h'' c' => (h'' + 2 * c' : ℚ))
          (fun _ c' x' y' => (c' + x' + y' : ℚ)) 2 3 0 0 0 :=
  (C8_channel_permutation_invariance (fun _ h'' c' => (h'' + 2 * c' : ℚ))
    (fun _ c' x' y' => (c' + x' + y' : ℚ)) 2 3 0 0 0 swap01 swap01
    (by decide) (by decide) (by decide) (by decide)).1

/-- C9: for kernel_order = 7, `student_conv` performs exactly the same
multiply-accumulate operations in exactly the same order (channel-major,
then kernel row `x`, then kernel column `y`) as `multichannel_conv` —
the two factor-pair traces coincide — and consequently stores the same
value into every output cell. -/
theorem C9_order7_identical_mac_sequence (image : Image) (kernels : Kernels)
    (nchannels m w h : ℕ) :
    student_mac_trace7 image kernels nchannels m w h
      = multichannel_mac_trace image kernels nchannels 7 m w h
    ∧ student_conv_cell image kernels nchannels 7 m w h
      = multichannel_conv_cell image kernels nchannels 7 m w h := by
  have h7 : List.range 7 = [0, 1, 2, 3, 4, 5, 6] := rfl
  constructor
  · simp only [student_mac_trace7, multichannel_mac_trace]
    refine List.flatMap_congr fun c hc => ?_
    rw [List.mem_range] at hc
    refine List.flatMap_congr fun x hx => ?_
    rw [List.mem_range] at hx
    have hk : ∀ y, y < 7 →
        kernel_flat kernels nchannels 7 (kernel_index nchannels 7 m c x y)
          = kernels m c x y :=
      fun y hy => kernel_flat_index kernels nchannels 7 m c x y hc hx hy
    rw [h7]
    simp [hk 0 (by norm_num), hk 1 (by norm_num), hk 2 (by norm_num),
      hk 3 (by norm_num), hk 4 (by norm_num), hk 5 (by norm_num),
      hk 6 (by norm_num)]
  · simp only [student_conv_cell, multichannel_conv_cell]
    rw [if_neg (by norm_num : ¬((7 : ℕ) = 1)),
      if_neg (by norm_num : ¬((7 : ℕ) = 3)),
      if_neg (by norm_num : ¬((7 : ℕ) = 5)), if_pos trivial]
    refine congrArg List.sum (List.map_congr_left fun c hc => ?_)
    rw [List.mem_range] at hc
    refine congrArg List.sum (List.map_congr_left fun x hx => ?_)
    rw [List.mem_range] at hx
    have hk : ∀ y, y < 7 →
        kernel_flat kernels nchannels 7 (kernel_index nchannels 7 m c x y)
          = kernels m c x y :=
      fun y hy => kernel_flat_index kernels nchannels 7 m c x y hc hx hy
    rw [h7]
    simp [hk 0 (by norm_num), hk 1 (by norm_num), hk 2 (by norm_num),
      hk 3 (by norm_num), hk 4 (by norm_num), hk 5 (by norm_num),
      hk 6 (by norm_num)]
    ring

/-- C10: called with a kernel_order outside {1, 3, 5, 7}, `student_conv`
takes none of its specialized branches: it reads no image element and no
kernel element, and the value it stores into every output cell is 0.0
(the running sum keeps its initial value). -/
theorem C10_invalid_order_reads_nothing_writes_zero
    (width height nchannels nkernels kernel_order : ℕ)
    (hk : ¬ (kernel_order = 1 ∨ kernel_order = 3 ∨ kernel_order = 5 ∨
      kernel_order = 7)) :
    student_conv_image_reads width height nchannels nkernels kernel_order = []
    ∧ student_conv_kernel_reads width height nchannels nkernels kernel_order = []
    ∧ ∀ (image : Image) (kernels : Kernels) (m w h : ℕ),
        student_conv_cell image kernels nchannels kernel_order m w h = 0 := by
  push_neg at hk
  obtain ⟨h1, h3, h5, h7⟩ := hk
  refine ⟨?_, ?_, ?_⟩
  · unfold student_conv_image_reads
    simp [h1, h3, h5, h7, flatMap_const_nil]
  · unfold student_conv_kernel_reads
    simp [h1, h3, h5, h7, flatMap_const_nil]
  · intro image kernels m w h
    simp [student_conv_cell, h1, h3, h5, h7]

/-- C10 (witness): the concrete invalid kernel order 2 with unit shape
parameters and nonzero tensors. -/
theorem C10_invalid_order_witness :
    student_conv_image_reads 1 1 1 1 2 = []
    ∧ student_conv_kernel_reads 1 1 1 1 2 = []
    ∧ student_conv_cell (fun _ _ _ => 5) (fun _ _ _ _ => 7) 1 2 0 0 0 = 0 := by
  have h := C10_invalid_order_reads_nothing_writes_zero 1 1 1 1 2 (by decide)
  exact ⟨h.1, h.2.1, h.2.2 (fun _ _ _ => 5) (fun _ _ _ _ => 7) 0 0 0⟩

/-- Promotedness is preserved by folding double-precision additions over a
list of promoted, non-bare summands. -/
theorem intPromoted_foldl {α : Type*} (l : List α) (g : α → FpExpr)
    (s : FpExpr) (hs : intPromoted s = true) (hsb : isBareKer s = false)
    (hg : ∀ a ∈ l, intPromoted (g a) = true ∧ isBareKer (g a) = false) :
    intPromoted (l.foldl (fun t a => .add .double t (g a)) s) = true := by
  induction l generalizing s with
  | nil => exact hs
  | cons a l ih =>
    rw [List.foldl_cons]
    refine ih (FpExpr.add .double s (g a)) ?_ rfl
      (fun b hb => hg b (List.mem_cons_of_mem a hb))
    have hga := hg a (List.mem_cons_self a l)
    simp [intPromoted, hs, hsb, hga.1, hga.2]

/-- All-additions-double is preserved by folding double-precision
additions over summands whose additions are all double. -/
theorem addsAllDouble_foldl {α : Type*} (l : List α) (g : α → FpExpr)
    (s : FpExpr) (hs : addsAllDouble s = true)
    (hg : ∀ a ∈ l, addsAllDouble (g a) = true) :
    addsAllDouble (l.foldl (fun t a => .add .double t (g a)) s) = true := by
  induction l generalizing s with
  | nil => exact hs
  | cons a l ih =>
    rw [List.foldl_cons]
    refine ih (FpExpr.add .double s (g a)) ?_
      (fun b hb => hg b (List.mem_cons_of_mem a hb))
    have hga := hg a (List.mem_cons_self a l)
    simp [addsAllDouble, hs, hga]

/-- Once the accumulator contains a single-precision addition, folding
further double additions cannot repair it. -/
theorem addsAllDouble_foldl_acc_false {α : Type*} (l : List α)
    (g : α → FpExpr) (s : FpExpr) (hs : addsAllDouble s = false) :
    addsAllDouble (l.foldl (fun t a => .add .double t (g a)) s) = false := by
  induction l generalizing s with
  | nil => exact hs
  | cons a l ih =>
    rw [List.foldl_cons]
    exact ih (FpExpr.add .double s (g a)) (by simp [addsAllDouble, hs])

/-- If some summand of the fold contains a single-precision addition, the
folded expression does. -/
theorem addsAllDouble_foldl_false {α : Type*} (l : List α) (g : α → FpExpr)
    (s : FpExpr) (a : α) (ha : a ∈ l) (hga : addsAllDouble (g a) = false) :
    addsAllDouble (l.foldl (fun t a => .add .double t (g a)) s) = false := by
  induction l generalizing s with
  | nil => cases ha
  | cons b l ih =>
    rw [List.foldl_cons]
    rcases List.mem_cons.mp ha with hab | hal
    · subst hab
      exact addsAllDouble_foldl_acc_false l g _ (by simp [addsAllDouble, hga])
    · exact ih (FpExpr.add .double s (g b)) hal

/-- Narrowings are not introduced by folding double additions over
narrowing-free summands. -/
theorem narrowCount_foldl {α : Type*} (l : List α) (g : α → FpExpr)
    (s : FpExpr) (hg : ∀ a ∈ l, narrowCount (g a) = 0) :
    narrowCount (l.foldl (fun t a => .add .double t (g a)) s)
      = narrowCount s := by
  induction l generalizing s with
  | nil => rfl
  | cons a l ih =>
    rw [List.foldl_cons,
      ih (FpExpr.add .double s (g a)) (fun b hb => hg b (List.mem_cons_of_mem a hb))]
    have hga := hg a (List.mem_cons_self a l)
    simp [narrowCount, hga]

/-- The folded accumulator is double-valued. -/
theorem isDoubleValued_foldl {α : Type*} (l : List α) (g : α → FpExpr)
    (s : FpExpr) (hs : isDoubleValued s = true) :
    isDoubleValued (l.foldl (fun t a => .add .double t (g a)) s) = true := by
  induction l generalizing s with
  | nil => exact hs
  | cons a l ih =>
    rw [List.foldl_cons]
    exact ih (FpExpr.add .double s (g a)) rfl

/-- The accumulator spine of the fold consists of double additions only. -/
theorem spineAddsDouble_foldl {α : Type*} (l : List α) (g : α → FpExpr)
    (s : FpExpr) (hs : spineAddsDouble s = true) :
    spineAddsDouble (l.foldl (fun t a => .add .double t (g a)) s) = true := by
  induction l generalizing s with
  | nil => exact hs
  | cons a l ih =>
    rw [List.foldl_cons]
    exact ih (FpExpr.add .double s (g a)) (by simp [spineAddsDouble, hs])

/-- Store expressions narrow exactly once: converting the double-valued
folded accumulator to single precision is the only narrowing when the
summands themselves contain none. -/
theorem narrowOnce_cvtSingle_foldl {α : Type*} (l : List α) (g : α → FpExpr)
    (hg : ∀ a ∈ l, narrowCount (g a) = 0) :
    narrowCount (.cvt .single
      (l.foldl (fun t a => .add .double t (g a)) .zeroD)) = 1 := by
  have h1 := isDoubleValued_foldl l g FpExpr.zeroD rfl
  have h2 := narrowCount_foldl l g FpExpr.zeroD hg
  simp [narrowCount, h1, h2]

/-- C4 (counterexample): at kernel_order = 3 (with one channel), the
operation structure of `student_conv` violates the claimed precision
policy: the conjunction "products promoted ∧ sum narrowed once ∧ every
addition of the (c,x,y) reduction in double precision" fails, because
`_mm_dp_ps` reduces each 3-tap kernel row in single precision. -/
theorem C4_order3_uses_single_precision_adds :
    ¬ (intPromoted (studentCellExpr 1 3 0 0 0) = true
      ∧ narrowCount (studentCellExpr 1 3 0 0 0) = 1
      ∧ addsAllDouble (studentCellExpr 1 3 0 0 0) = true) := by
  decide

/-- C4 (amended): in `student_conv`, every product promotes the 16-bit
kernel operand to floating point before multiplying, and the value stored
is narrowed from double to `float` exactly once, for every kernel order;
for kernel orders 1, 5 and 7 every addition of the `(c,x,y)` reduction is
performed in double precision, but for kernel order 3 only the
accumulator spine is double — each 3-tap row is reduced by `_mm_dp_ps` in
single precision, so not all additions are double (for kernel order 5 the
products themselves are even formed in double precision). -/
theorem C4_precision_policy (nchannels m w h : ℕ) (hn : 0 < nchannels) :
    (intPromoted (studentCellExpr nchannels 1 m w h) = true
      ∧ narrowCount (studentCellExpr nchannels 1 m w h) = 1
      ∧ addsAllDouble (studentCellExpr nchannels 1 m w h) = true)
    ∧ (intPromoted (studentCellExpr nchannels 5 m w h) = true
      ∧ narrowCount (studentCellExpr nchannels 5 m w h) = 1
      ∧ addsAllDouble (studentCellExpr nchannels 5 m w h) = true)
    ∧ (intPromoted (studentCellExpr nchannels 7 m w h) = true
      ∧ narrowCount (studentCellExpr nchannels 7 m w h) = 1
      ∧ addsAllDouble (studentCellExpr nchannels 7 m w h) = true)
    ∧ (intPromoted (studentCellExpr nchannels 3 m w h) = true
      ∧ narrowCount (studentCellExpr nchannels 3 m w h) = 1
      ∧ spineAddsDouble (studentCellExpr nchannels 3 m w h) = true
      ∧ addsAllDouble (studentCellExpr nchannels 3 m w h) = false) := by
  have hb1 : studentCellExpr nchannels 1 m w h = .cvt .single FpExpr.zeroD := by
    simp [studentCellExpr]
  have hb3 : studentCellExpr nchannels 3 m w h
      = .cvt .single ((rowIndices nchannels 3).foldl
          (fun s cx => .add .double s (.cvt .double (row3Expr m cx.1 cx.2 w h)))
          .zeroD) := by
    simp [studentCellExpr]
  have hb5 : studentCellExpr nchannels 5 m w h
      = .cvt .single ((rowIndices nchannels 5).foldl
          (fun s cx => .add .double s (row5Expr m cx.1 cx.2 w h)) .zeroD) := by
    simp [studentCellExpr]
  have hb7 : studentCellExpr nchannels 7 m w h
      = .cvt .single ((macIndices7 nchannels).foldl
          (fun s cxy =>
            .add .double s (.cvt .double (scalarProdExpr m cxy.1 cxy.2.1 cxy.2.2 w h)))
          .zeroD) := by
    simp [studentCellExpr]
  refine ⟨⟨?_, ?_, ?_⟩, ⟨?_, ?_, ?_⟩, ⟨?_, ?_, ?_⟩, ⟨?_, ?_, ?_, ?_⟩⟩
  · rw [hb1]; rfl
  · rw [hb1]; rfl
  · rw [hb1]; rfl
  · rw [hb5]
    show intPromoted ((rowIndices nchannels 5).foldl _ _) = true
    exact intPromoted_foldl _ _ _ rfl rfl (fun a _ => ⟨rfl, rfl⟩)
  · rw [hb5]
    exact narrowOnce_cvtSingle_foldl _ _ (fun a _ => rfl)
  · rw [hb5]
    show addsAllDouble ((rowIndices nchannels 5).foldl _ _) = true
    exact addsAllDouble_foldl _ _ _ rfl (fun a _ => rfl)
  · rw [hb7]
    show intPromoted ((macIndices7 nchannels).foldl _ _) = true
    exact intPromoted_foldl _ _ _ rfl rfl (fun a _ => ⟨rfl, rfl⟩)
  · rw [hb7]
    exact narrowOnce_cvtSingle_foldl _ _ (fun a _ => rfl)
  · rw [hb7]
    show addsAllDouble ((macIndices7 nchannels).foldl _ _) = true
    exact addsAllDouble_foldl _ _ _ rfl (fun a _ => rfl)
  · rw [hb3]
    show intPromoted ((rowIndices nchannels 3).foldl _ _) = true
    exact intPromoted_foldl _ _ _ rfl rfl (fun a _ => ⟨rfl, rfl⟩)
  · rw [hb3]
    exact narrowOnce_cvtSingle_foldl _ _ (fun a _ => rfl)
  · rw [hb3]
    show spineAddsDouble ((rowIndices nchannels 3).foldl _ _) = true
    exact spineAddsDouble_foldl _ _ _ rfl
  · rw [hb3]
    show addsAllDouble ((rowIndices nchannels 3).foldl _ _) = false
    refine addsAllDouble_foldl_false _ _ _ (0, 0) ?_ rfl
    simp only [rowIndices, List.mem_flatMap, List.mem_map, List.mem_range]
    exact ⟨0, hn, 0, by norm_num, rfl⟩

/-- C4 (witness): with one channel, the order-3 cell expression contains
single-precision additions while the order-7 cell expression does not. -/
theorem C4_precision_policy_witness :
    addsAllDouble (studentCellExpr 1 3 0 0 0) = false
    ∧ addsAllDouble (studentCellExpr 1 7 0 0 0) = true :=
  ⟨((C4_precision_policy 1 0 0 0 (by decide)).2.2.2).2.2.2,
   ((C4_precision_policy 1 0 0 0 (by decide)).2.2.1).2.2⟩

end VectorConv
